import Mathlib

/-
Verification development for `Src/Modelo_Seleccion_Region_OilGas.py`.

The script is a straight-line statistical pipeline: per-region linear
regression, a deterministic top-well profit calculation, and a bootstrap
resampling loop producing a profit distribution.  This file gives a shallow
embedding of its data model and operations and proves / refutes the frozen
claims about it.

Modelling conventions:
* A pandas `Series` is a list of (integer label, rational value) pairs in
  positional order; rationals model Python floats (the arithmetic of the script
  is exact in this model).
* `s.loc[labels]` with a list-like key returns, for each requested label in
  order, every row of `s` carrying that label (so duplicated labels are
  expanded, exactly as pandas does).
* The seeded numpy generator is modelled as a stream `Nat → Nat` of raw draws;
  a draw is turned into an index position by reduction mod the population
  size.  The stream is a pure function of the seed, as `np.random.default_rng`
  is.
* `sort_values` is modelled by a stable insertion sort (the quicksort of pandas is
  unstable; no claim below depends on the order of tied values).
-/

namespace OilRegion

/-- A pandas Series: (label, value) pairs in positional order. -/
abbrev Series := List (Nat × ℚ)

/-- Sum of the values of a series (pandas `Series.sum`; the empty sum is 0). -/
def seriesSum (s : Series) : ℚ := (s.map Prod.snd).sum

/-- The descending-by-value comparison used by `sort_values(ascending=False)`. -/
def valueDesc (a b : Nat × ℚ) : Prop := b.2 ≤ a.2

instance : DecidableRel valueDesc := fun a b => inferInstanceAs (Decidable (b.2 ≤ a.2))

instance : IsTotal (Nat × ℚ) valueDesc := ⟨fun a b => le_total b.2 a.2⟩

instance : IsTrans (Nat × ℚ) valueDesc := ⟨fun _ _ _ h1 h2 => le_trans h2 h1⟩

/-- `predictions_valid.sort_values(ascending=False)`: the series reordered so
that values are descending. -/
def sortValuesDesc (s : Series) : Series := List.insertionSort valueDesc s

/-- `s.loc[labels]` for a list-like key: for each requested label in order,
all rows of `s` carrying that label. -/
def locLabels (s : Series) (labels : List Nat) : Series :=
  labels.flatMap (fun l => s.filter (fun r => r.1 == l))

/-- `RANDOM_STATE = 12345`. -/
def RANDOM_STATE : Nat := 12345

/-- `BUDGET = 10_000_000`. -/
def BUDGET : ℚ := 10000000

/-- `REVENUE_PER_THOUSAND_BARRELS = 4_500`. -/
def REVENUE_PER_THOUSAND_BARRELS : ℚ := 4500

/-- `N_WELLS_PER_REGION = 500`. -/
def N_WELLS_PER_REGION : Nat := 500

/-- `N_TOP_WELLS = 200`. -/
def N_TOP_WELLS : Nat := 200

/-- `N_BOOTSTRAP_ITER = 1000`. -/
def N_BOOTSTRAP_ITER : Nat := 1000

/-- `calculate_profit(target_valid, predictions_valid, budget,
revenue_per_unit, n_wells_in_sample, n_top_wells)`: sort the predictions
descending, keep the labels of the first `n_top_wells` rows, look those
labels up in `target_valid`, sum the real volumes, multiply by the revenue
per unit and subtract the budget.  The `n_wells_in_sample` argument is
accepted but never used, as in the source. -/
def calculate_profit (target_valid predictions_valid : Series)
    (budget revenue_per_unit : ℚ) (n_wells_in_sample n_top_wells : Nat) : ℚ :=
  let order := sortValuesDesc predictions_valid
  let selected_idx := (order.take n_top_wells).map Prod.fst
  let total_product := seriesSum (locLabels target_valid selected_idx)
  let revenue := total_product * revenue_per_unit
  revenue - budget

/-- Arithmetic mean of a list of rationals (`np.mean`). -/
def qMean (l : List ℚ) : ℚ := l.sum / (l.length : ℚ)

/-- The linear-interpolation kernel of `np.percentile` on an ascending-sorted
list `b` at fractional position `h`: with `i = ⌊h⌋`, the result is
`b[i] + (h - i) * (b[i+1] - b[i])`, where an out-of-range `b[i+1]` falls back
to `b[i]` (numpy clips the upper index; the fractional part is then 0). -/
def interpH (b : List ℚ) (h : ℚ) : ℚ :=
  let i : Nat := (⌊h⌋).toNat
  let lo : ℚ := b.getD i 0
  let hi : ℚ := b.getD (i + 1) lo
  lo + (h - (i : ℚ)) * (hi - lo)

/-- `np.percentile` interpolates at fractional position `q/100 * (n-1)`. -/
def interpAt (b : List ℚ) (q : ℚ) : ℚ :=
  interpH b (q / 100 * ((b.length : ℚ) - 1))

/-- `np.percentile(l, q)` with the default linear interpolation method:
sort ascending, then interpolate. -/
def percentile (l : List ℚ) (q : ℚ) : ℚ :=
  interpAt (List.insertionSort (· ≤ ·) l) q

/-- One call `rng.choice(indices, size=n_wells_in_sample, replace=True)` for
the `k`-th bootstrap iteration: `n_wells_in_sample` draws taken from the seed
stream, each reduced mod the population size to an index position. -/
def drawSample (indices : List Nat) (n_wells_in_sample : Nat) (rng : Nat → Nat)
    (k : Nat) : List Nat :=
  (List.range n_wells_in_sample).map
    (fun j => indices.getD (rng (k * n_wells_in_sample + j) % indices.length) 0)

/-- The body of one bootstrap iteration: resample target and predictions at
the drawn labels and price the sample with `calculate_profit`. -/
def profitOfSample (target_valid predictions_valid : Series)
    (n_wells_in_sample n_top_wells : Nat) (budget revenue_per_unit : ℚ)
    (rng : Nat → Nat) (k : Nat) : ℚ :=
  let sample_idx := drawSample (target_valid.map Prod.fst) n_wells_in_sample rng k
  calculate_profit (locLabels target_valid sample_idx)
    (locLabels predictions_valid sample_idx) budget revenue_per_unit
    n_wells_in_sample n_top_wells

/-- The `for _ in range(n_iter)` loop of `bootstrap_profit`, appending one
profit per iteration to an initially empty list. -/
def bootstrapProfits (target_valid predictions_valid : Series)
    (n_iter n_wells_in_sample n_top_wells : Nat) (budget revenue_per_unit : ℚ)
    (rng : Nat → Nat) : List ℚ :=
  (List.range n_iter).foldl
    (fun acc k => acc ++ [profitOfSample target_valid predictions_valid
      n_wells_in_sample n_top_wells budget revenue_per_unit rng k]) []

/-- The dictionary returned by `bootstrap_profit`. -/
structure BootstrapResult where
  mean_profit : ℚ
  ci_low : ℚ
  ci_high : ℚ
  risk : ℚ
  profits : List ℚ
deriving DecidableEq

/-- `bootstrap_profit(target_valid, predictions_valid, n_iter,
n_wells_in_sample, n_top_wells, budget, revenue_per_unit, random_state)`.
`none` models the two ways the Python function raises instead of returning:
`rng.choice` on an empty population with a positive sample size (ValueError),
and `np.percentile` on the empty profit list left by `n_iter = 0`
(IndexError).  The seeded generator `np.random.default_rng(random_state)` is
the stream `rng`. -/
def bootstrap_profit (target_valid predictions_valid : Series)
    (n_iter n_wells_in_sample n_top_wells : Nat) (budget revenue_per_unit : ℚ)
    (rng : Nat → Nat) : Option BootstrapResult :=
  if target_valid.map Prod.fst = [] ∧ n_wells_in_sample ≠ 0 then none
  else if n_iter = 0 then none
  else
    let profits := bootstrapProfits target_valid predictions_valid n_iter
      n_wells_in_sample n_top_wells budget revenue_per_unit rng
    some ⟨qMean profits, percentile profits (5/2), percentile profits (195/2),
      ((profits.countP (fun x => decide (x < 0)) : ℕ) : ℚ) / (n_iter : ℚ), profits⟩

/-- One row of a region dataframe: geological features `f0 f1 f2` and the
real `product` volume. -/
structure Row where
  f0 : ℚ
  f1 : ℚ
  f2 : ℚ
  product : ℚ
deriving DecidableEq, Inhabited

/-- A region dataframe: rows in positional order, labelled by the default
RangeIndex (label = position). -/
abbrev DataFrame := List Row

/-- The feature triple `["f0", "f1", "f2"]` of one row. -/
def featuresOf (r : Row) : ℚ × ℚ × ℚ := (r.f0, r.f1, r.f2)

/-- Result dictionary of `train_region`.  `rmse_sq` is the square of the
`rmse` of the code, i.e. `mean_squared_error(target_valid, preds_valid)` before
the square root (the square root of a rational need not be rational; every
claim about `rmse` here concerns only the rows it is computed from). -/
structure TrainResult where
  region : String
  target_valid : Series
  preds_valid : Series
  rmse_sq : ℚ
  r2 : ℚ
  mean_pred : ℚ
deriving DecidableEq

/-- `train_test_split(..., test_size=0.25)` puts `ceil(0.25 * n)` rows into
the test (validation) split. -/
def nValidOf (n : Nat) : Nat := (n + 3) / 4

/-- `train_region(df, region_name, random_state)`.  The seeded shuffle inside
`train_test_split` is the permutation `perm` of the row positions: the sklearn
ShuffleSplit takes the first `ceil(0.25 n)` entries of its permutation as the
test (validation) rows and the remaining `floor(0.75 n)` as the training
rows.  The least-squares solver of `LinearRegression().fit` is the parameter
`fit`, mapping the training rows to a prediction function on feature triples.
Validation target and predictions keep the original row labels, as in the
source (`pd.Series(model.predict(features_valid), index=target_valid.index)`). -/
def train_region (df : DataFrame) (region_name : String)
    (perm : List Nat) (fit : List Row → (ℚ × ℚ × ℚ → ℚ)) : TrainResult :=
  let validPos := perm.take (nValidOf df.length)
  let trainPos := perm.drop (nValidOf df.length)
  let trainRows := trainPos.map (fun i => df.getD i default)
  let model := fit trainRows
  let target_valid : Series := validPos.map (fun i => (i, (df.getD i default).product))
  let preds_valid : Series :=
    validPos.map (fun i => (i, model (featuresOf (df.getD i default))))
  let errs := List.zipWith (fun t p => (t.2 - p.2) ^ 2) target_valid preds_valid
  let rmse_sq := qMean errs
  let ys := target_valid.map Prod.snd
  let ybar := qMean ys
  let ssTot := (ys.map (fun y => (y - ybar) ^ 2)).sum
  let r2 := 1 - errs.sum / ssTot
  ⟨region_name, target_valid, preds_valid, rmse_sq, r2,
    qMean (preds_valid.map Prod.snd)⟩

/-- `load_region_data`: once the three CSVs are read, the returned dictionary
is `{"0": df0, "1": df1, "2": df2}`, modelled as an association list in
insertion order. -/
def load_region_data (df0 df1 df2 : DataFrame) : List (String × DataFrame) :=
  [("0", df0), ("1", df1), ("2", df2)]

/-- The per-region loop of `main`: train each loaded region once (the fixed
seed gives one splitting permutation per row count) and run one bootstrap per
trained region (each `bootstrap_profit` call reseeds
`default_rng(RANDOM_STATE)`, hence the same stream for every region). -/
def mainSummaries (df0 df1 df2 : DataFrame) (permOf : Nat → List Nat)
    (fit : List Row → (ℚ × ℚ × ℚ → ℚ)) (rng : Nat → Nat) :
    List (String × Option BootstrapResult) :=
  (load_region_data df0 df1 df2).map (fun pr =>
    let res := train_region pr.2 pr.1 (permOf pr.2.length) fit
    (res.region, bootstrap_profit res.target_valid res.preds_valid
      N_BOOTSTRAP_ITER N_WELLS_PER_REGION N_TOP_WELLS BUDGET
      REVENUE_PER_THOUSAND_BARRELS rng))

/-- One row of the final summary table of `main`. -/
structure SummaryRow where
  region : String
  mean_profit : ℚ
  ci_low : ℚ
  ci_high : ℚ
  risk_pct : ℚ
deriving DecidableEq, Inhabited

/-- The summary row `main` builds from the bootstrap statistics of one region
(the column `Riesgo de pérdida (%)` is `risk * 100`). -/
def summaryRowOf (region : String) (stats : BootstrapResult) : SummaryRow :=
  ⟨region, stats.mean_profit, stats.ci_low, stats.ci_high, stats.risk * 100⟩

/-- Round half-to-even (`np.round`, which `DataFrame.round` applies). -/
def roundHalfEven (x : ℚ) : ℤ :=
  if x - ⌊x⌋ < 1/2 then ⌊x⌋
  else if 1/2 < x - ⌊x⌋ then ⌊x⌋ + 1
  else if ⌊x⌋ % 2 = 0 then ⌊x⌋ else ⌊x⌋ + 1

/-- `round(2)`: round to two decimal places, half to even. -/
def round2 (x : ℚ) : ℚ := (roundHalfEven (x * 100) : ℚ) / 100

/-- `summary_df.round(2)` applied to one row (the region name is a string
column and is left untouched). -/
def roundRow (r : SummaryRow) : SummaryRow :=
  ⟨r.region, round2 r.mean_profit, round2 r.ci_low, round2 r.ci_high,
    round2 r.risk_pct⟩

/-- The sort key of `sort_values("Beneficio promedio (USD)",
ascending=False)`: descending mean profit. -/
def byMeanDesc (a b : SummaryRow) : Prop := b.mean_profit ≤ a.mean_profit

instance : DecidableRel byMeanDesc :=
  fun a b => inferInstanceAs (Decidable (b.mean_profit ≤ a.mean_profit))

instance : IsTotal SummaryRow byMeanDesc := ⟨fun a b => le_total b.mean_profit a.mean_profit⟩

instance : IsTrans SummaryRow byMeanDesc := ⟨fun _ _ _ h1 h2 => le_trans h2 h1⟩

/-- The final report `summary_df.round(2).sort_values("Beneficio promedio
(USD)", ascending=False)`: rows rounded to two decimals, then ordered by
descending mean profit and by nothing else. -/
def summaryRanking (rows : List SummaryRow) : List SummaryRow :=
  List.insertionSort byMeanDesc (rows.map roundRow)

/-- The conjunction of properties claim C2 states for `bootstrap_profit`:
the function returns; its `profits` are one `calculate_profit` evaluation per
resampled index list, in loop order, `n_iter` of them; every drawn sample has
`n_wells_in_sample` labels, each a member of the index of `target_valid`
(sampling with replacement: repetitions allowed); and the summary fields are
the mean, the 2.5th and 97.5th percentiles and the strictly-negative fraction
of those profits. -/
def bootstrapSpec (t p : Series) (n_iter nw ntop : Nat) (b rev : ℚ)
    (rng : Nat → Nat) : Prop :=
  ∃ res, bootstrap_profit t p n_iter nw ntop b rev rng = some res ∧
    res.profits = (List.range n_iter).map (profitOfSample t p nw ntop b rev rng) ∧
    (∀ k, (drawSample (t.map Prod.fst) nw rng k).length = nw) ∧
    (∀ k l, l ∈ drawSample (t.map Prod.fst) nw rng k → l ∈ t.map Prod.fst) ∧
    (∀ k, profitOfSample t p nw ntop b rev rng k
        = calculate_profit (locLabels t (drawSample (t.map Prod.fst) nw rng k))
            (locLabels p (drawSample (t.map Prod.fst) nw rng k)) b rev nw ntop) ∧
    res.mean_profit = res.profits.sum / (n_iter : ℚ) ∧
    res.ci_low = percentile res.profits (5/2) ∧
    res.ci_high = percentile res.profits (195/2) ∧
    res.risk = ((res.profits.countP (fun x => decide (x < 0)) : ℕ) : ℚ) / (n_iter : ℚ)

/-- The conjunction of properties claim C6 states: on inputs where the Python
function returns, the bootstrap loop body executes exactly `n_iter` times
(one recorded profit per iteration) and the `k`-th recorded profit is a
function of the `k`-th resample alone, so no iteration feeds any other. -/
def terminationSpec (t p : Series) (n_iter nw ntop : Nat) (b rev : ℚ)
    (rng : Nat → Nat) : Prop :=
  ∃ res, bootstrap_profit t p n_iter nw ntop b rev rng = some res ∧
    res.profits.length = n_iter ∧
    ∀ k, k < n_iter →
      res.profits.getD k 0 = profitOfSample t p nw ntop b rev rng k

/-- The conjunction of properties claim C4 states for `train_region`: the
validation split holds `ceil(0.25 n)` rows (a 25% split, the bounds pin the
rounding) and together with the training positions partitions the row
positions; the returned validation predictions are the model fitted on the
training rows only, evaluated at the validation features; any solver that
agrees on the training rows yields the very same result (so nothing outside
the training rows enters the fit); and `rmse`, `r2` and `mean_pred` are
computed from the validation target/prediction series only. -/
def trainSpec (df : DataFrame) (region_name : String) (perm : List Nat)
    (fit : List Row → (ℚ × ℚ × ℚ → ℚ)) : Prop :=
  (train_region df region_name perm fit).target_valid.length = nValidOf df.length ∧
  df.length ≤ 4 * nValidOf df.length ∧
  4 * nValidOf df.length ≤ df.length + 3 ∧
  List.Perm ((train_region df region_name perm fit).target_valid.map Prod.fst
      ++ perm.drop (nValidOf df.length)) (List.range df.length) ∧
  (train_region df region_name perm fit).preds_valid
    = (perm.take (nValidOf df.length)).map
        (fun i => (i, fit ((perm.drop (nValidOf df.length)).map
          (fun j => df.getD j default)) (featuresOf (df.getD i default)))) ∧
  (∀ fit2, fit2 ((perm.drop (nValidOf df.length)).map (fun j => df.getD j default))
        = fit ((perm.drop (nValidOf df.length)).map (fun j => df.getD j default)) →
      train_region df region_name perm fit2 = train_region df region_name perm fit) ∧
  (train_region df region_name perm fit).mean_pred
    = qMean ((train_region df region_name perm fit).preds_valid.map Prod.snd) ∧
  (train_region df region_name perm fit).rmse_sq
    = qMean (List.zipWith (fun a b => (a.2 - b.2) ^ 2)
        (train_region df region_name perm fit).target_valid
        (train_region df region_name perm fit).preds_valid) ∧
  (train_region df region_name perm fit).r2
    = 1 - (List.zipWith (fun a b => (a.2 - b.2) ^ 2)
        (train_region df region_name perm fit).target_valid
        (train_region df region_name perm fit).preds_valid).sum
      / (((train_region df region_name perm fit).target_valid.map Prod.snd).map
          (fun y => (y - qMean ((train_region df region_name perm fit).target_valid.map
            Prod.snd)) ^ 2)).sum

/-- The property the amended C3 states: the final report is exactly the
rounded summary rows reordered so that the region printed first maximizes
the rounded mean bootstrap profit over all regions — regardless of risk. -/
def rankedByMeanOnly (rows : List SummaryRow) : Prop :=
  List.Perm (summaryRanking rows) (rows.map roundRow) ∧
  ∀ r ∈ rows, round2 r.mean_profit
      ≤ ((summaryRanking rows).headD default).mean_profit

/-! ### Helper lemmas -/

theorem foldl_append_eq_map (f : Nat → ℚ) (l : List Nat) (acc : List ℚ) :
    l.foldl (fun a k => a ++ [f k]) acc = acc ++ l.map f := by
  induction l generalizing acc with
  | nil => simp
  | cons x xs ih => simp [ih]

theorem bootstrapProfits_eq_map (t p : Series) (n_iter nw ntop : Nat)
    (b rev : ℚ) (rng : Nat → Nat) :
    bootstrapProfits t p n_iter nw ntop b rev rng
      = (List.range n_iter).map (profitOfSample t p nw ntop b rev rng) := by
  unfold bootstrapProfits
  rw [foldl_append_eq_map]
  simp

theorem getD_congr_default (l : List ℚ) (i : Nat) (hi : i < l.length) (d d' : ℚ) :
    l.getD i d = l.getD i d' := by
  rw [List.getD_eq_getElem l d hi, List.getD_eq_getElem l d' hi]

theorem sorted_getD_mono {b : List ℚ} (hb : List.Sorted (· ≤ ·) b) {i j : Nat}
    (hij : i ≤ j) (hj : j < b.length) : b.getD i 0 ≤ b.getD j 0 := by
  have hi : i < b.length := Nat.lt_of_le_of_lt hij hj
  have hfin : (⟨i, hi⟩ : Fin b.length) ≤ ⟨j, hj⟩ := hij
  have h := List.Sorted.rel_get_of_le hb hfin
  rw [List.getD_eq_getElem b 0 hi, List.getD_eq_getElem b 0 hj]
  simpa [List.get_eq_getElem] using h

theorem floor_toNat_castQ {x : ℚ} (hx : 0 ≤ x) : ((⌊x⌋.toNat : ℚ)) = ((⌊x⌋ : ℤ) : ℚ) := by
  have e : ((⌊x⌋.toNat : ℤ)) = ⌊x⌋ := Int.toNat_of_nonneg (Int.floor_nonneg.mpr hx)
  exact_mod_cast congrArg (fun z : ℤ => (z : ℚ)) e

theorem interpH_mono {b : List ℚ} (hb : List.Sorted (· ≤ ·) b)
    {h1 h2 : ℚ} (h1nn : 0 ≤ h1) (h12 : h1 ≤ h2)
    (h2le : h2 ≤ (b.length : ℚ) - 1) :
    interpH b h1 ≤ interpH b h2 := by
  have h2nn : 0 ≤ h2 := le_trans h1nn h12
  have hc1 : ((⌊h1⌋.toNat : ℚ)) ≤ h1 := by
    rw [floor_toNat_castQ h1nn]; exact Int.floor_le h1
  have hc1' : h1 < ((⌊h1⌋.toNat : ℚ)) + 1 := by
    rw [floor_toNat_castQ h1nn]; exact Int.lt_floor_add_one h1
  have hc2 : ((⌊h2⌋.toNat : ℚ)) ≤ h2 := by
    rw [floor_toNat_castQ h2nn]; exact Int.floor_le h2
  have hc2' : h2 < ((⌊h2⌋.toNat : ℚ)) + 1 := by
    rw [floor_toNat_castQ h2nn]; exact Int.lt_floor_add_one h2
  have hi12 : ⌊h1⌋.toNat ≤ ⌊h2⌋.toNat := Int.toNat_le_toNat (Int.floor_le_floor h12)
  have hi2lt : ⌊h2⌋.toNat < b.length := by
    by_contra hcon
    push_neg at hcon
    have hcast : ((b.length : ℚ)) ≤ ((⌊h2⌋.toNat : ℚ)) := by exact_mod_cast hcon
    linarith
  simp only [interpH]
  set i1 := ⌊h1⌋.toNat with hi1def
  set i2 := ⌊h2⌋.toNat with hi2def
  rcases eq_or_lt_of_le hi12 with heq | hlt
  · rw [heq]
    rw [heq] at hc1 hc1'
    have hlohi : b.getD i2 0 ≤ b.getD (i2 + 1) (b.getD i2 0) := by
      rcases Nat.lt_or_ge (i2 + 1) b.length with hr | hr
      · have h' := sorted_getD_mono hb (Nat.le_succ i2) hr
        rwa [getD_congr_default b (i2 + 1) hr 0 (b.getD i2 0)] at h'
      · rw [List.getD_eq_default _ _ hr]
    have hd : 0 ≤ b.getD (i2 + 1) (b.getD i2 0) - b.getD i2 0 := sub_nonneg.mpr hlohi
    nlinarith [hd]
  · have hi11 : i1 + 1 ≤ i2 := hlt
    have hi11lt : i1 + 1 < b.length := Nat.lt_of_le_of_lt hi11 hi2lt
    have hhi1 : b.getD (i1 + 1) (b.getD i1 0) = b.getD (i1 + 1) 0 :=
      getD_congr_default b (i1 + 1) hi11lt _ _
    have hl1 : b.getD i1 0 ≤ b.getD (i1 + 1) 0 :=
      sorted_getD_mono hb (Nat.le_succ i1) hi11lt
    have hmid : b.getD (i1 + 1) 0 ≤ b.getD i2 0 :=
      sorted_getD_mono hb hi11 hi2lt
    have hl2 : b.getD i2 0 ≤ b.getD (i2 + 1) (b.getD i2 0) := by
      rcases Nat.lt_or_ge (i2 + 1) b.length with hr | hr
      · have h' := sorted_getD_mono hb (Nat.le_succ i2) hr
        rwa [getD_congr_default b (i2 + 1) hr 0 (b.getD i2 0)] at h'
      · rw [List.getD_eq_default _ _ hr]
    rw [hhi1]
    have step1 : b.getD i1 0 + (h1 - (i1 : ℚ)) * (b.getD (i1 + 1) 0 - b.getD i1 0)
        ≤ b.getD (i1 + 1) 0 := by nlinarith [sub_nonneg.mpr hl1]
    have step2 : b.getD i2 0
        ≤ b.getD i2 0 + (h2 - (i2 : ℚ)) * (b.getD (i2 + 1) (b.getD i2 0) - b.getD i2 0) := by
      nlinarith [sub_nonneg.mpr hl2]
    linarith

theorem percentile_mono (l : List ℚ) (hne : l ≠ []) {q1 q2 : ℚ}
    (h0 : 0 ≤ q1) (h12 : q1 ≤ q2) (h100 : q2 ≤ 100) :
    percentile l q1 ≤ percentile l q2 := by
  unfold percentile interpAt
  have hs := List.sorted_insertionSort (· ≤ ·) l
  have hlen : (List.insertionSort (· ≤ ·) l).length = l.length :=
    List.length_insertionSort _ l
  have hpos : 0 < l.length := List.length_pos.mpr hne
  have hL : (1:ℚ) ≤ ((List.insertionSort (· ≤ ·) l).length : ℚ) := by
    rw [hlen]; exact_mod_cast hpos
  apply interpH_mono hs
  · apply mul_nonneg (div_nonneg h0 (by norm_num)); linarith
  · apply mul_le_mul_of_nonneg_right
    · linarith
    · linarith
  · have hq : q2 / 100 ≤ 1 := by linarith
    nlinarith

theorem seriesSum_append (s1 s2 : Series) :
    seriesSum (s1 ++ s2) = seriesSum s1 + seriesSum s2 := by
  simp [seriesSum]

theorem seriesSum_locLabels (t : Series) (labels : List Nat) :
    seriesSum (locLabels t labels)
      = (labels.map (fun l => seriesSum (t.filter (fun r => r.1 == l)))).sum := by
  induction labels with
  | nil => simp [locLabels, seriesSum]
  | cons x xs ih =>
      simp only [locLabels, List.flatMap_cons] at *
      rw [seriesSum_append, ih]
      simp

theorem map_filterSum_of_nodup (t : Series) (hnd : (t.map Prod.fst).Nodup) :
    ((t.map Prod.fst).map (fun l => seriesSum (t.filter (fun r => r.1 == l)))).sum
      = seriesSum t := by
  induction t with
  | nil => simp [seriesSum]
  | cons a t ih =>
      rw [List.map_cons, List.nodup_cons] at hnd
      obtain ⟨ha, hnd'⟩ := hnd
      have hfa : (a :: t).filter (fun r => r.1 == a.1) = [a] := by
        rw [List.filter_cons_of_pos (by simp)]
        have hnil : t.filter (fun r => r.1 == a.1) = [] := by
          rw [List.filter_eq_nil_iff]
          intro r hr hbe
          have hr1 : r.1 = a.1 := by simpa using hbe
          exact ha (hr1 ▸ List.mem_map_of_mem Prod.fst hr)
        rw [hnil]
      have htail : (t.map Prod.fst).map
            (fun l => seriesSum ((a :: t).filter (fun r => r.1 == l)))
          = (t.map Prod.fst).map (fun l => seriesSum (t.filter (fun r => r.1 == l))) := by
        apply List.map_congr_left
        intro l hl
        have hne : ¬(a.1 == l) = true := by
          simp only [beq_iff_eq]
          intro hcontra
          exact ha (hcontra ▸ hl)
        rw [List.filter_cons]
        simp [hne]
      simp only [List.map_cons, List.sum_cons]
      rw [hfa, htail, ih hnd']
      simp [seriesSum]

theorem seriesSum_locLabels_perm (t : Series) (labels : List Nat)
    (hperm : List.Perm labels (t.map Prod.fst)) (hnd : (t.map Prod.fst).Nodup) :
    seriesSum (locLabels t labels) = seriesSum t := by
  rw [seriesSum_locLabels]
  rw [List.Perm.sum_eq (List.Perm.map _ hperm)]
  exact map_filterSum_of_nodup t hnd

/-! ### Claim theorems -/

/-- C8: the result of `calculate_profit` does not depend on its
`n_wells_in_sample` parameter: two calls that differ only in the value passed
for that argument return the same profit (the parameter is accepted and
documented but never used in the computation). -/
theorem calculate_profit_ignores_n_wells (t p : Series) (b rev : ℚ)
    (nw1 nw2 ntop : Nat) :
    calculate_profit t p b rev nw1 ntop = calculate_profit t p b rev nw2 ntop := rfl

/-- C1 (failing-input evaluation): on the identically-indexed two-row series
with duplicated label 0 and value 1, with `n_top_wells = 1`, `budget = 0` and
`revenue_per_unit = 1`, `calculate_profit` returns 2 — but the claim requires
the revenue term to sum exactly `min(n_top_wells, #wells) = min(1, 2) = 1`
actual value, i.e. a profit of 1.  The second conjunct counts the rows the
code actually summed: `target_valid.loc[selected_idx]` expands the duplicated
label to 2 rows, never just 1. -/
theorem calculate_profit_dup_label_overcount :
    calculate_profit [(0, 1), (0, 1)] [(0, 1), (0, 1)] 0 1 500 1 = 2 ∧
    (locLabels [(0, (1:ℚ)), (0, 1)]
        (((sortValuesDesc [(0, (1:ℚ)), (0, 1)]).take 1).map Prod.fst)).length = 2 := by
  constructor
  · norm_num [calculate_profit, sortValuesDesc, List.insertionSort,
      List.orderedInsert, locLabels, seriesSum, valueDesc]
  · norm_num [sortValuesDesc, List.insertionSort, List.orderedInsert,
      locLabels, valueDesc]

/-- C10 counterexample: with `n_top_wells = 2` at or above the sample size 2,
on the identically-indexed series with duplicated label 5 and values 2 and 3
(`budget = 0`, `revenue_per_unit = 1`), `calculate_profit` returns 10, not
`sum(target_valid) * revenue_per_unit - budget = 5`: `.loc` expands each of
the two selected duplicated labels to both rows, so every value is summed
twice. -/
theorem calculate_profit_all_wells_cex :
    calculate_profit [(5, 2), (5, 3)] [(5, 2), (5, 3)] 0 1 500 2 = 10 ∧
    seriesSum [(5, (2:ℚ)), (5, 3)] * 1 - 0 = 5 ∧ (10:ℚ) ≠ 5 := by
  refine ⟨?_, ?_, by norm_num⟩
  · norm_num [calculate_profit, sortValuesDesc, List.insertionSort,
      List.orderedInsert, locLabels, seriesSum, valueDesc]
  · norm_num [seriesSum]

/-- C10 (amended): when `n_top_wells` is at least the number of wells in the
sample, `calculate_profit` raises no error (it is total) and selects every
well; provided the shared index has pairwise-distinct labels it returns
`sum(target_valid) * revenue_per_unit - budget`. -/
theorem calculate_profit_all_wells (t p : Series) (b rev : ℚ) (nw ntop : Nat)
    (hidx : t.map Prod.fst = p.map Prod.fst)
    (hnd : (t.map Prod.fst).Nodup)
    (hlen : t.length ≤ ntop) :
    calculate_profit t p b rev nw ntop = seriesSum t * rev - b := by
  simp only [calculate_profit]
  have hsp : List.Perm (sortValuesDesc p) p := List.perm_insertionSort _ p
  have hlenp : (sortValuesDesc p).length = p.length := hsp.length_eq
  have hlen_tp : p.length = t.length := by
    have hc := congrArg List.length hidx
    simpa using hc.symm
  rw [List.take_of_length_le (by omega)]
  have hperm : List.Perm ((sortValuesDesc p).map Prod.fst) (t.map Prod.fst) := by
    rw [hidx]; exact hsp.map _
  rw [seriesSum_locLabels_perm t _ hperm hnd]

/-- Witness for the amended C10 theorem at a concrete input with distinct
labels and `n_top_wells = 3 ≥ 2` wells. -/
theorem calculate_profit_all_wells_witness :
    calculate_profit [(0, 2), (1, 3)] [(0, 5), (1, 4)] 7 2 500 3
      = seriesSum [(0, (2:ℚ)), (1, 3)] * 2 - 7 :=
  calculate_profit_all_wells [(0, 2), (1, 3)] [(0, 5), (1, 4)] 7 2 500 3
    (by simp) (by simp) (by simp)

theorem bootstrapProfits_length (t p : Series) (n_iter nw ntop : Nat)
    (b rev : ℚ) (rng : Nat → Nat) :
    (bootstrapProfits t p n_iter nw ntop b rev rng).length = n_iter := by
  rw [bootstrapProfits_eq_map]
  simp

/-- C2: `bootstrap_profit` draws `n_iter` samples of `n_wells_in_sample`
labels with replacement from the index of `target_valid`, prices each sample
with `calculate_profit`, and returns the mean, the 2.5th and 97.5th
percentiles (a 95% confidence interval) and the fraction of strictly
negative profits of the resulting distribution.  Stated for every input on
which the Python function returns instead of raising: at least one iteration,
and a nonempty index or a zero sample size. -/
theorem bootstrap_profit_spec (t p : Series) (n_iter nw ntop : Nat)
    (b rev : ℚ) (rng : Nat → Nat) (hiter : n_iter ≠ 0)
    (hpop : t ≠ [] ∨ nw = 0) :
    bootstrapSpec t p n_iter nw ntop b rev rng := by
  have hcond : ¬(t.map Prod.fst = [] ∧ nw ≠ 0) := by
    rintro ⟨hmap, hnw⟩
    rcases hpop with h | h
    · exact h (List.map_eq_nil_iff.mp hmap)
    · exact hnw h
  unfold bootstrapSpec bootstrap_profit
  rw [if_neg hcond, if_neg hiter]
  refine ⟨_, rfl, bootstrapProfits_eq_map t p n_iter nw ntop b rev rng,
    ?_, ?_, fun k => rfl, ?_, rfl, rfl, rfl⟩
  · intro k
    simp [drawSample]
  · intro k l hl
    simp only [drawSample, List.mem_map, List.mem_range] at hl
    obtain ⟨j, hj, rfl⟩ := hl
    rcases hpop with hne | hnw
    · have hlen : 0 < (t.map Prod.fst).length := by
        simpa using List.length_pos.mpr hne
      have hmod : rng (k * nw + j) % (t.map Prod.fst).length
          < (t.map Prod.fst).length := Nat.mod_lt _ hlen
      rw [List.getD_eq_getElem _ _ hmod]
      exact List.getElem_mem _
    · subst hnw
      simp at hj
  · simp only [qMean, bootstrapProfits_length]

/-- Witness for the C2 theorem at a concrete input. -/
theorem bootstrap_profit_spec_witness :
    bootstrapSpec [(0, 1)] [(0, 1)] 1 1 1 0 1 (fun _ => 0) :=
  bootstrap_profit_spec [(0, 1)] [(0, 1)] 1 1 1 0 1 (fun _ => 0)
    (by decide) (Or.inl (by simp))

/-- C6: the computation is a fixed-length straight-line pipeline that
terminates: every definition in this development is a total structural
function of its input, the bootstrap loop executes exactly `n_iter`
iterations, and iteration `k` depends only on its own resample — no
operation loops back, retries, or reads the output of a later stage. -/
theorem bootstrap_profit_fixed_length (t p : Series) (n_iter nw ntop : Nat)
    (b rev : ℚ) (rng : Nat → Nat) (hiter : n_iter ≠ 0)
    (hpop : t ≠ [] ∨ nw = 0) :
    terminationSpec t p n_iter nw ntop b rev rng := by
  have hcond : ¬(t.map Prod.fst = [] ∧ nw ≠ 0) := by
    rintro ⟨hmap, hnw⟩
    rcases hpop with h | h
    · exact h (List.map_eq_nil_iff.mp hmap)
    · exact hnw h
  unfold terminationSpec bootstrap_profit
  rw [if_neg hcond, if_neg hiter]
  refine ⟨_, rfl, bootstrapProfits_length t p n_iter nw ntop b rev rng, ?_⟩
  intro k hk
  rw [bootstrapProfits_eq_map]
  have hk' : k < ((List.range n_iter).map
      (profitOfSample t p nw ntop b rev rng)).length := by simpa using hk
  rw [List.getD_eq_getElem _ _ hk']
  simp

/-- Witness for the C6 theorem at a concrete input. -/
theorem bootstrap_profit_fixed_length_witness :
    terminationSpec [(1, 2)] [(1, 5)] 2 1 1 3 2 (fun i => i) :=
  bootstrap_profit_fixed_length [(1, 2)] [(1, 5)] 2 1 1 3 2 (fun i => i)
    (by decide) (Or.inl (by simp))

/-- C9: whenever `bootstrap_profit` returns a result, the risk is a
probability (`0 ≤ risk ≤ 1`), the confidence bounds are ordered
(`ci_low ≤ ci_high`), and the profits array has exactly `n_iter` entries. -/
theorem bootstrap_profit_invariants (t p : Series) (n_iter nw ntop : Nat)
    (b rev : ℚ) (rng : Nat → Nat) (res : BootstrapResult)
    (hres : bootstrap_profit t p n_iter nw ntop b rev rng = some res) :
    0 ≤ res.risk ∧ res.risk ≤ 1 ∧ res.ci_low ≤ res.ci_high ∧
    res.profits.length = n_iter := by
  unfold bootstrap_profit at hres
  by_cases h1 : t.map Prod.fst = [] ∧ nw ≠ 0
  · rw [if_pos h1] at hres
    exact absurd hres (by simp)
  rw [if_neg h1] at hres
  by_cases h2 : n_iter = 0
  · rw [if_pos h2] at hres
    exact absurd hres (by simp)
  rw [if_neg h2] at hres
  cases Option.some.inj hres
  have hlen := bootstrapProfits_length t p n_iter nw ntop b rev rng
  have hne : bootstrapProfits t p n_iter nw ntop b rev rng ≠ [] := by
    intro hnil
    rw [hnil] at hlen
    exact h2 hlen.symm
  refine ⟨?_, ?_, ?_, hlen⟩
  · positivity
  · apply div_le_one_of_le
    · have hc := List.countP_le_length (fun x => decide (x < 0))
        (l := bootstrapProfits t p n_iter nw ntop b rev rng)
      rw [hlen] at hc
      exact_mod_cast hc
    · positivity
  · exact percentile_mono _ hne (by norm_num) (by norm_num) (by norm_num)

/-- Witness for the C9 theorem: a concrete run returning
`⟨3, 3, 3, 0, [3]⟩`. -/
theorem bootstrap_profit_invariants_witness :
    0 ≤ (⟨3, 3, 3, 0, [3]⟩ : BootstrapResult).risk ∧
    (⟨3, 3, 3, 0, [3]⟩ : BootstrapResult).risk ≤ 1 ∧
    (⟨3, 3, 3, 0, [3]⟩ : BootstrapResult).ci_low
      ≤ (⟨3, 3, 3, 0, [3]⟩ : BootstrapResult).ci_high ∧
    (⟨3, 3, 3, 0, [3]⟩ : BootstrapResult).profits.length = 1 :=
  bootstrap_profit_invariants [(0, 3)] [(0, 3)] 1 1 1 0 1 (fun _ => 0)
    ⟨3, 3, 3, 0, [3]⟩ (by
      norm_num [bootstrap_profit, bootstrapProfits, profitOfSample, drawSample,
        calculate_profit, locLabels, sortValuesDesc, List.insertionSort,
        List.orderedInsert, seriesSum, valueDesc, qMean, percentile, interpAt,
        interpH, List.range_succ, List.getD, List.countP, List.countP.go])

/-- C7: all randomness is derived from the fixed seed: `train_region` is a
pure function of its arguments, and two `bootstrap_profit` runs whose seed
streams agree on the draws the loop consumes (`n_iter * n_wells_in_sample`
of them, as `default_rng(random_state)` reproduces for a fixed
`random_state`) return identical results — two-run equality. -/
theorem seeded_runs_deterministic (df : DataFrame) (name : String)
    (perm : List Nat) (fit : List Row → (ℚ × ℚ × ℚ → ℚ))
    (t p : Series) (n_iter nw ntop : Nat) (b rev : ℚ)
    (rng1 rng2 : Nat → Nat)
    (hagree : ∀ i, i < n_iter * nw → rng1 i = rng2 i) :
    train_region df name perm fit = train_region df name perm fit ∧
    bootstrap_profit t p n_iter nw ntop b rev rng1
      = bootstrap_profit t p n_iter nw ntop b rev rng2 := by
  refine ⟨rfl, ?_⟩
  have hprof : bootstrapProfits t p n_iter nw ntop b rev rng1
      = bootstrapProfits t p n_iter nw ntop b rev rng2 := by
    rw [bootstrapProfits_eq_map, bootstrapProfits_eq_map]
    apply List.map_congr_left
    intro k hk
    have hk' : k < n_iter := List.mem_range.mp hk
    unfold profitOfSample
    have hdraw : drawSample (t.map Prod.fst) nw rng1 k
        = drawSample (t.map Prod.fst) nw rng2 k := by
      unfold drawSample
      apply List.map_congr_left
      intro j hj
      have hj' : j < nw := List.mem_range.mp hj
      have hlt : k * nw + j < n_iter * nw := by
        have h1 : k * nw + j < (k + 1) * nw := by
          have h2 : (k + 1) * nw = k * nw + nw := by ring
          omega
        have h3 : (k + 1) * nw ≤ n_iter * nw := Nat.mul_le_mul_right nw hk'
        omega
      rw [hagree (k * nw + j) hlt]
    rw [hdraw]
  simp only [bootstrap_profit]
  rw [hprof]

/-- Witness for the C7 theorem: two runs sharing the stream of the fixed
seed coincide. -/
theorem seeded_runs_deterministic_witness :
    train_region [] "0" [] (fun _ v => v.1) = train_region [] "0" [] (fun _ v => v.1) ∧
    bootstrap_profit [(2, 1)] [(2, 1)] 2 1 1 0 1 (fun i => i)
      = bootstrap_profit [(2, 1)] [(2, 1)] 2 1 1 0 1 (fun i => i) :=
  seeded_runs_deterministic [] "0" [] (fun _ v => v.1) [(2, 1)] [(2, 1)] 2 1 1 0 1
    (fun i => i) (fun i => i) (fun _ _ => rfl)

/-- C4: for every region dataframe, `train_region` splits the rows 75%/25%
using the permutation the fixed `random_state` determines, fits the linear
model on the training rows only, and returns validation predictions together
with `rmse` (here its square, the mean squared error), `r2` and `mean_pred`
computed on the validation set only.  The hypothesis states that the seeded
shuffle is a permutation of the row positions. -/
theorem train_region_spec (df : DataFrame) (region_name : String)
    (perm : List Nat) (fit : List Row → (ℚ × ℚ × ℚ → ℚ))
    (hperm : List.Perm perm (List.range df.length)) :
    trainSpec df region_name perm fit := by
  have hplen : perm.length = df.length := by simpa using hperm.length_eq
  have hfst : (train_region df region_name perm fit).target_valid.map Prod.fst
      = perm.take (nValidOf df.length) := by
    simp only [train_region, List.map_map]
    have hid : (Prod.fst ∘ fun i : ℕ => (i, (df.getD i default).product)) = id := rfl
    rw [hid, List.map_id]
  refine ⟨?_, ?_, ?_, ?_, rfl, ?_, rfl, rfl, rfl⟩
  · simp only [train_region, List.length_map, List.length_take, hplen]
    unfold nValidOf
    omega
  · unfold nValidOf; omega
  · unfold nValidOf; omega
  · rw [hfst, List.take_append_drop]
    exact hperm
  · intro fit2 h
    simp only [train_region]
    rw [h]

/-- Witness for the C4 theorem on a concrete 4-row dataframe with the
permutation `[2, 0, 1, 3]`. -/
theorem train_region_spec_witness :
    trainSpec [⟨1, 2, 3, 10⟩, ⟨4, 5, 6, 20⟩, ⟨7, 8, 9, 30⟩, ⟨2, 2, 2, 40⟩] "0"
      [2, 0, 1, 3] (fun _ v => v.1) :=
  train_region_spec _ "0" _ _ (by decide)

/-- C5: `load_region_data` returns a dictionary with exactly the three keys
"0", "1" and "2" (no duplicates), one loaded dataset per candidate region,
and the `main` loop trains one model and runs one bootstrap profit analysis
per region, exactly once each: the summary has exactly one entry per region
key, in order. -/
theorem pipeline_three_regions (d0 d1 d2 : DataFrame)
    (permOf : Nat → List Nat) (fit : List Row → (ℚ × ℚ × ℚ → ℚ))
    (rng : Nat → Nat) :
    (load_region_data d0 d1 d2).map Prod.fst = ["0", "1", "2"] ∧
    ((load_region_data d0 d1 d2).map Prod.fst).Nodup ∧
    (mainSummaries d0 d1 d2 permOf fit rng).map Prod.fst = ["0", "1", "2"] ∧
    (mainSummaries d0 d1 d2 permOf fit rng).length = 3 := by
  refine ⟨rfl, ?_, rfl, rfl⟩
  rw [show (load_region_data d0 d1 d2).map Prod.fst = ["0", "1", "2"] from rfl]
  decide

/-- C3 counterexample: a concrete summary in which the region printed first
by the final report carries a 100% probability of loss (`risk_pct = 100`)
while another region has positive mean profit and zero risk.  Under the
claimed ranking — maximize mean profit among the regions satisfying the risk
(downside-probability) constraint — region "0" could never be ranked first
(no nontrivial risk constraint admits a certain loss while region "1"
satisfies every one), yet the code ranks it first: no risk constraint is
applied to the ranking. -/
theorem summary_ranking_ignores_risk_cex :
    (summaryRanking [⟨"0", 100, 0, 0, 100⟩, ⟨"1", 50, 0, 0, 0⟩,
        ⟨"2", 40, 0, 0, 0⟩]).map SummaryRow.region = ["0", "1", "2"] ∧
    ((summaryRanking [⟨"0", 100, 0, 0, 100⟩, ⟨"1", 50, 0, 0, 0⟩,
        ⟨"2", 40, 0, 0, 0⟩]).headD default).risk_pct = 100 := by
  constructor <;>
    norm_num [summaryRanking, roundRow, round2, roundHalfEven,
      List.insertionSort, List.orderedInsert, byMeanDesc]

/-- C3 (amended): the final report ranks regions by rounded mean bootstrap
profit in descending order only: the downside-risk column is displayed but no
risk constraint filters or reorders the ranking — the region printed first
maximizes mean profit among all regions whatever their risks (the budget
enters only through the profit values themselves). -/
theorem summary_ranking_by_mean_only (rows : List SummaryRow) :
    rankedByMeanOnly rows := by
  constructor
  · exact List.perm_insertionSort byMeanDesc (rows.map roundRow)
  · intro r hr
    have hmem : roundRow r ∈ summaryRanking rows :=
      ((List.perm_insertionSort byMeanDesc (rows.map roundRow)).mem_iff).mpr
        (List.mem_map_of_mem roundRow hr)
    have hsorted : List.Sorted byMeanDesc (summaryRanking rows) :=
      List.sorted_insertionSort byMeanDesc (rows.map roundRow)
    cases hs : summaryRanking rows with
    | nil =>
        rw [hs] at hmem
        exact absurd hmem (List.not_mem_nil _)
    | cons a as =>
        rw [hs] at hmem hsorted
        simp only [List.headD_cons]
        have hmean : (roundRow r).mean_profit = round2 r.mean_profit := rfl
        rcases List.mem_cons.mp hmem with heq | htl
        · rw [← hmean, heq]
        · have hle := (List.sorted_cons.mp hsorted).1 _ htl
          rw [← hmean]
          exact hle

end OilRegion
